import Mathlib

/-!
Verification of the invoice rule-engine and merge/split engine.

This file gives a shallow embedding, in Lean 4, of the core of the
invoice-system demo backend:

* the merge/split engine
  (backend-python/app/core/invoice_merge_engine.py, class InvoiceMergeEngine);
* the field-existence test of the simple expression evaluator
  (backend/app/core/rule_engine.py, SimpleExpressionEvaluator._has_field and
  _get_field_value_from_context);
* the CEL-based field completion and business validation engines
  (backend/app/core/cel_engine.py, CELFieldCompletionEngine.complete,
  CELBusinessValidationEngine.validate, and load_rules).  Note that
  rule_engine.py rebinds FieldCompletionEngine and BusinessValidationEngine to
  the CEL classes at module level, so the CEL classes are the effective
  engines.

Modelling conventions:

* Python Decimal values are modelled as rationals (Rat).  Sums and
  differences of Decimals are exact, as here; Decimal division rounds to 28
  significant digits while Rat division is exact, but no theorem below
  depends on a division result.
* Python dicts preserve insertion order; grouping loops of the form
  "if key not in groups: groups[key] = []; groups[key].append(x)" are
  modelled by groupByKey below, a left fold that appends to the group of the
  first occurrence of the key.
* Python str(decimal) depends on the Decimal exponent (str(Decimal("0.10"))
  is "0.10", not "0.1").  The item merge key renders the tax rate through
  toString on Rat instead; no theorem below depends on this rendering.
* The execution log of the merge engine is audit-only (the spec notes it
  never affects control flow) and is not modelled; the logs of the
  completion/validation engines are modelled, since the claims mention them.
* The CEL expression evaluator itself is the external celpy library plus
  textual preprocessing; the completion/validation engines treat it as a
  black box that either returns a value or raises.  They are therefore
  parameterised over an evaluation oracle E : String -> EvalContext ->
  Except String Value, and over the reflective field setters
  (_set_field_value / setattr), which the spec directs to become explicit
  field-path resolvers.
-/

/-! ## String helpers

Core String functions such as String.splitOn, String.startsWith and
String.replace do not reduce in the kernel, so we use structurally
recursive equivalents on the underlying character lists. -/

/-- Split a character list at every dot, as Python str.split does:
the empty list yields one empty part. -/
def splitParts : List Char → List (List Char)
  | [] => [[]]
  | c :: cs =>
    if c = '.' then [] :: splitParts cs
    else
      match splitParts cs with
      | [] => [[c]]
      | p :: ps => (c :: p) :: ps

/-- Model of field_path.split(".") from the Python sources. -/
def pathParts (s : String) : List String := (splitParts s.data).map (fun cs => String.mk cs)

/-- Model of s.startswith(p). -/
def strStartsWith (s p : String) : Bool := p.data.isPrefixOf s.data

/-- Model of rule.target_field.replace("items[].", "") as used by the
completion engines: in the branch where it is applied the target starts with
the marker, so removing the occurrences amounts to dropping the prefix
(replace would also rewrite any later occurrence of the marker; target
fields contain it at most once). -/
def stripItemsMarker (s : String) : String := String.mk (s.data.drop "items[].".length)

/-! ## Dynamic values and the evaluation context

The Python evaluators operate on dynamically typed values: None, bools,
ints, Decimals, strings, and dict-like objects (both dicts and pydantic
models, which the walker treats alike via dict.get / getattr). -/

/-- Dynamically typed value, as seen by the expression evaluators.
VNull models Python None. -/
inductive Value where
  | VNull : Value
  | VBool : Bool → Value
  | VInt : Int → Value
  | VDec : Rat → Value
  | VStr : String → Value
  | VObj : List (String × Value) → Value

/-- First value bound to a key in an object, None (VNull) when absent:
models dict.get(part) followed by the None check. -/
def objGet (fields : List (String × Value)) (k : String) : Value :=
  match fields with
  | [] => Value.VNull
  | (k', v) :: rest => if k' = k then v else objGet rest k

/-- Python truthiness of an evaluation result, as used by
"if not should_apply" and "if not is_valid". -/
def truthy : Value → Bool
  | Value.VNull => false
  | Value.VBool b => b
  | Value.VInt n => n != 0
  | Value.VDec q => decide (q ≠ 0)
  | Value.VStr s => s != ""
  | Value.VObj fields => !fields.isEmpty

namespace SimpleExpressionEvaluator

/-- Walk the remaining path parts from a current value:
dict-like values are looked up (a missing key gives None and the walk
stops, as does a None value); a scalar with parts left has no such
attribute, so the walk yields None. -/
def walkPath : List String → Value → Value
  | [], v => v
  | p :: ps, Value.VObj fields =>
    match objGet fields p with
    | Value.VNull => Value.VNull
    | v => walkPath ps v
  | _ :: _, _ => Value.VNull

/-- SimpleExpressionEvaluator._get_field_value_from_context
(backend/app/core/rule_engine.py): split the dotted path and walk it from
the context dict; unresolvable paths give None rather than an error. -/
def _get_field_value_from_context (field_path : String) (context : List (String × Value)) :
    Value :=
  walkPath (pathParts field_path) (Value.VObj context)

/-- SimpleExpressionEvaluator._has_field (backend/app/core/rule_engine.py):
None is absent, the empty string is absent, everything else - including
numeric zero, whose check is commented out in the source - is present. -/
def _has_field (field_path : String) (context : List (String × Value)) : Bool :=
  match _get_field_value_from_context field_path context with
  | Value.VNull => false
  | Value.VStr s => if s = "" then false else true
  | _ => true

end SimpleExpressionEvaluator

/-! ## Insertion-ordered grouping

Model of the Python grouping idiom over an insertion-ordered dict. -/

section Grouping

variable {α : Type} {K : Type} [DecidableEq K]

/-- Append an element to the group of key k, creating the group at the end
when the key is new: one step of the Python grouping loop. -/
def addToGroup (k : K) (a : α) : List (K × List α) → List (K × List α)
  | [] => [(k, [a])]
  | (k', g) :: rest =>
    if k' = k then (k', g ++ [a]) :: rest else (k', g) :: addToGroup k a rest

/-- Group a list by a key function, keys in first-occurrence order, each
group in input order: the result of the Python grouping loop. -/
def groupByKey (key : α → K) (xs : List α) : List (K × List α) :=
  xs.foldl (fun acc a => addToGroup (key a) a acc) []

end Grouping

/-! ## Domain model (backend-python/app/models/domain.py)

Only the fields the merge/split engine reads or writes are carried;
remaining pydantic fields ride along unchanged under deepcopy and are
irrelevant to every claim. -/

/-- Party (supplier or customer). -/
structure Party where
  name : String
  tax_no : Option String
  email : Option String
deriving DecidableEq, Repr

/-- InvoiceItem: one line of an invoice. -/
structure InvoiceItem where
  item_id : String
  description : String
  name : Option String
  quantity : Rat
  unit_price : Rat
  amount : Rat
  tax_rate : Option Rat
  tax_amount : Option Rat
  tax_category : Option String
deriving DecidableEq, Repr

/-- InvoiceDomainObject: the in-memory invoice. -/
structure Invoice where
  invoice_number : String
  invoice_type : String
  country : String
  supplier : Party
  customer : Party
  items : List InvoiceItem
  total_amount : Rat
  tax_amount : Option Rat
  net_amount : Option Rat
deriving DecidableEq, Repr

/-- Sum of f over a list; models sum(f(x) for x in xs) on Decimals. -/
def sumBy {α : Type} (f : α → Rat) (xs : List α) : Rat := (xs.map f).sum

namespace InvoiceMergeEngine

/-- MergeStrategy enum of invoice_merge_engine.py. -/
inductive MergeStrategy where
  | NONE : MergeStrategy
  | BY_TAX_PARTY : MergeStrategy
deriving DecidableEq, Repr

/-- Optional config dict of the merge/split entry points; it is logged but
never read, so its payload is irrelevant. -/
abbrev MergeConfig := List (String × String)

/-- Grouping key of _merge_by_tax_party:
f-string customer_tax_no + underscore + supplier_tax_no, with a missing
tax number (or, by Python truthiness, an empty one) becoming "". -/
def invoiceGroupKey (inv : Invoice) : String :=
  inv.customer.tax_no.getD "" ++ "_" ++ inv.supplier.tax_no.getD ""

/-- Tax-rate component of the item merge key: str(item.tax_rate or "");
None and Decimal zero are falsy, hence the empty string.  The rendering of
a nonzero rate is toString on Rat (see the file header note). -/
def taxRateKeyStr (r : Option Rat) : String :=
  match r with
  | Option.none => ""
  | some q => if q = 0 then "" else toString q

/-- Item merge key of _merge_invoice_items:
tax rate, name and tax category joined by underscores. -/
def itemMergeKey (it : InvoiceItem) : String :=
  taxRateKeyStr it.tax_rate ++ "_" ++ it.name.getD "" ++ "_" ++ it.tax_category.getD ""

/-- Merge one group of items sharing a merge key (_merge_invoice_items,
inner loop): a singleton group passes through; a larger group becomes one
item with summed quantity, amount and tax amount, unit price recomputed as
amount over quantity guarded at zero, and a derived description. -/
def mergeItemGroup : List InvoiceItem → List InvoiceItem
  | [] => []
  | [it] => [it]
  | base :: it2 :: rest =>
    let g := base :: it2 :: rest
    let total_quantity := sumBy (fun it => it.quantity) g
    let total_amount := sumBy (fun it => it.amount) g
    let total_tax_amount := sumBy (fun it => it.tax_amount.getD 0) g
    let unit_price := if 0 < total_quantity then total_amount / total_quantity else 0
    [{ base with
        quantity := total_quantity
        amount := total_amount
        tax_amount := some total_tax_amount
        unit_price := unit_price
        description := "合并明细: " ++ base.description }]

/-- InvoiceMergeEngine._merge_invoice_items: group the lines by
(tax rate, name, tax category) and merge each group. -/
def _merge_invoice_items (items : List InvoiceItem) : List InvoiceItem :=
  (groupByKey itemMergeKey items).flatMap (fun kg => mergeItemGroup kg.2)

/-- InvoiceMergeEngine._merge_invoice_group: empty input raises ValueError
(modelled as none); one invoice passes through; otherwise the first invoice
is the template, all lines are concatenated in input order and merged, the
totals are recomputed from the merged lines, and the id is prefixed. -/
def _merge_invoice_group : List Invoice → Option Invoice
  | [] => Option.none
  | [inv] => some inv
  | base :: inv2 :: rest =>
    let all_items := (base :: inv2 :: rest).flatMap (fun inv => inv.items)
    let merged_items := _merge_invoice_items all_items
    let total_amount := sumBy (fun it => it.amount) merged_items
    let total_tax_amount := sumBy (fun it => it.tax_amount.getD 0) merged_items
    some { base with
        items := merged_items
        total_amount := total_amount
        tax_amount := some total_tax_amount
        net_amount := some (total_amount - total_tax_amount)
        invoice_number := "MERGED_" ++ base.invoice_number }

/-- InvoiceMergeEngine._merge_by_tax_party: group by the
customer/supplier key; singleton groups pass through, larger groups are
merged.  The config argument is logged but never read. -/
def _merge_by_tax_party (invoices : List Invoice) (_config : Option MergeConfig) :
    List Invoice :=
  if invoices.isEmpty then invoices
  else
    (groupByKey invoiceGroupKey invoices).flatMap
      (fun kg => if kg.2.length == 1 then kg.2 else (_merge_invoice_group kg.2).toList)

/-- InvoiceMergeEngine._execute_merge: the strategy argument is ignored and
the fixed BY_TAX_PARTY strategy is substituted. -/
def _execute_merge (invoices : List Invoice) (_strategy : MergeStrategy)
    (config : Option MergeConfig) : List Invoice :=
  _merge_by_tax_party invoices config

/-- Tax category of an item for splitting: item.tax_category or the
uncategorised marker, by Python truthiness, so both None and the empty
string map to the marker. -/
def catOf (it : InvoiceItem) : String :=
  match it.tax_category with
  | Option.none => "未分类"
  | some c => if c = "" then "未分类" else c

/-- InvoiceMergeEngine._create_split_invoice: deep copy of the original
invoice carrying one category of lines, amounts recomputed from those
lines, id suffixed by the category. -/
def _create_split_invoice (original_invoice : Invoice) (items : List InvoiceItem)
    (tax_category : String) : Invoice :=
  let total_amount := sumBy (fun it => it.amount) items
  let total_tax_amount := sumBy (fun it => it.tax_amount.getD 0) items
  { original_invoice with
      items := items
      total_amount := total_amount
      tax_amount := some total_tax_amount
      net_amount := some (total_amount - total_tax_amount)
      invoice_number := original_invoice.invoice_number ++ "_" ++ tax_category }

/-- InvoiceMergeEngine._split_by_tax_category: group the lines by category;
at most one category means no split (the invoice passes through unchanged),
otherwise one new invoice per category. -/
def _split_by_tax_category (invoice : Invoice) : List Invoice :=
  let groups := groupByKey catOf invoice.items
  if groups.length ≤ 1 then [invoice]
  else groups.map (fun kg => _create_split_invoice invoice kg.2 kg.1)

/-- InvoiceMergeEngine._execute_split: split every invoice and concatenate. -/
def _execute_split (invoices : List Invoice) (_config : Option MergeConfig) :
    List Invoice :=
  invoices.flatMap _split_by_tax_category

/-- InvoiceMergeEngine.merge: the strategy argument is ignored and the
fixed BY_TAX_PARTY strategy is passed down. -/
def merge (invoices : List Invoice) (_strategy : MergeStrategy)
    (config : Option MergeConfig) : List Invoice :=
  _execute_merge invoices MergeStrategy.BY_TAX_PARTY config

/-- InvoiceMergeEngine.split. -/
def split (invoices : List Invoice) (config : Option MergeConfig) : List Invoice :=
  _execute_split invoices config

/-- InvoiceMergeEngine.merge_and_split: merge with the fixed BY_TAX_PARTY
strategy (the strategy argument is ignored), then split. -/
def merge_and_split (invoices : List Invoice) (_strategy : MergeStrategy)
    (merge_config : Option MergeConfig) (split_config : Option MergeConfig) :
    List Invoice :=
  _execute_split (_execute_merge invoices MergeStrategy.BY_TAX_PARTY merge_config)
    split_config

end InvoiceMergeEngine

/-! ## Rule model (backend/app/models/rules.py) -/

/-- FieldCompletionRule: completion rules carry a guard (apply_to), a
target field path and a value expression. -/
structure CompletionRule where
  id : String
  rule_name : String
  apply_to : String
  priority : Int
  active : Bool
  target_field : String
  rule_expression : String
deriving DecidableEq, Repr

/-- FieldValidationRule: validation rules carry a guard, a boolean
expression and an error message. -/
structure ValidationRule where
  id : String
  rule_name : String
  apply_to : String
  priority : Int
  active : Bool
  field_path : String
  rule_expression : String
  error_message : String
deriving DecidableEq, Repr

/-- Evaluation context handed to the expression evaluator: the invoice,
and for line-item rules also the current item. -/
structure EvalContext where
  invoice : Invoice
  item : Option InvoiceItem
deriving Repr

/-- Build the context dict, {"invoice": domain} or
{"invoice": domain, "item": item}. -/
def mkCtx (d : Invoice) (it : Option InvoiceItem) : EvalContext := ⟨d, it⟩

/-- Evaluation oracle: the CEL evaluator either returns a value or raises
(Except.error carries str(e)).  VNull models a None result. -/
abbrev EvalOracle := String → EvalContext → Except String Value

/-- Reflective document field setter (CELExpressionEvaluator._set_field_value):
some d2 on success, none when the write fails (the setter itself catches
its exceptions and returns False). -/
abbrev DocSetter := Invoice → String → Value → Option Invoice

/-- Reflective item field setter (setattr on the item): some it2 on
success, none when setattr raises. -/
abbrev ItemSetter := InvoiceItem → String → Value → Option InvoiceItem

/-- Execution log entry of the completion/validation engines; the message
and timestamp strings are elided, the status, rule name, optional item
index and detail (error text or target field) are kept. -/
structure LogEntry where
  status : String
  rule_name : String
  item_index : Option Nat
  detail : String
deriving DecidableEq, Repr

/-- Log status constants. -/
def statusError : String := "error"

/-- Successful-write status. -/
def statusSuccess : String := "success"

/-- Failed-write status. -/
def statusFailed : String := "failed"

/-- Passed-validation status. -/
def statusPassed : String := "passed"

/-- Failed-validation status. -/
def statusFailedValidation : String := "failed"

/-- The ERROR log entries produced by an items[] rule whose evaluation
raises for every item: one entry per item, indices counting up from
start. -/
def errorEntriesFor (r : CompletionRule) (m : String) : Nat → Nat → List LogEntry
  | 0, _ => []
  | Nat.succ n, start =>
    ⟨statusError, r.rule_name, some start, m⟩ :: errorEntriesFor r m n (start + 1)

namespace CELFieldCompletionEngine

/-- One item of the items[] loop of _process_items_rule: the guard and the
value expression are evaluated against {invoice, item}; an evaluation
exception is caught and logged as error, a falsy guard skips silently, a
None value writes nothing and logs nothing, a write failure logs failed,
a successful write logs success. -/
def processOneItem (E : EvalOracle) (sIF : ItemSetter) (d : Invoice)
    (r : CompletionRule) (fld : String) (idx : Nat) (it : InvoiceItem) :
    InvoiceItem × List LogEntry :=
  let ctx := mkCtx d (some it)
  let run : InvoiceItem × List LogEntry :=
    match E r.rule_expression ctx with
    | Except.error e => (it, [⟨statusError, r.rule_name, some idx, e⟩])
    | Except.ok Value.VNull => (it, [])
    | Except.ok v =>
      match sIF it fld v with
      | some it2 => (it2, [⟨statusSuccess, r.rule_name, some idx, r.target_field⟩])
      | Option.none => (it, [⟨statusFailed, r.rule_name, some idx, r.target_field⟩])
  if r.apply_to = "" then run
  else
    match E r.apply_to ctx with
    | Except.error e => (it, [⟨statusError, r.rule_name, some idx, e⟩])
    | Except.ok v => if truthy v then run else (it, [])

/-- The items[] loop: items are processed left to right; each context sees
the invoice with the already-processed prefix (items are mutated in place
in the source). -/
def processItemsGo (E : EvalOracle) (sIF : ItemSetter) (r : CompletionRule)
    (fld : String) (base : Invoice) :
    List InvoiceItem → List InvoiceItem → Nat → List InvoiceItem × List LogEntry
  | done, [], _ => (done, [])
  | done, it :: todo, i =>
    let cur := { base with items := done ++ it :: todo }
    let step := processOneItem E sIF cur r fld i it
    let rest := processItemsGo E sIF r fld base (done ++ [step.1]) todo (i + 1)
    (rest.1, step.2 ++ rest.2)

/-- CELFieldCompletionEngine._process_items_rule: strip the items[] marker
from the target, return unchanged when there are no items, otherwise run
the per-item loop and store the resulting items. -/
def _process_items_rule (E : EvalOracle) (sIF : ItemSetter) (d : Invoice)
    (r : CompletionRule) : Invoice × List LogEntry :=
  let fld := stripItemsMarker r.target_field
  if d.items.isEmpty then (d, [])
  else
    let res := processItemsGo E sIF r fld d [] d.items 0
    ({ d with items := res.1 }, res.2)

/-- One iteration of CELFieldCompletionEngine.complete: inactive rules are
skipped without a log entry; items[] rules go through the per-item loop;
otherwise the guard is evaluated (a falsy guard skips silently), then the
value expression; any evaluation exception is caught and logged as error;
a None value writes nothing and logs nothing; otherwise the field is set
and success or failure is logged. -/
def completeRuleStep (E : EvalOracle) (sF : DocSetter) (sIF : ItemSetter)
    (d : Invoice) (r : CompletionRule) : Invoice × List LogEntry :=
  if r.active = false then (d, [])
  else if strStartsWith r.target_field "items[]." then _process_items_rule E sIF d r
  else
    let ctx := mkCtx d Option.none
    let run : Invoice × List LogEntry :=
      match E r.rule_expression ctx with
      | Except.error e => (d, [⟨statusError, r.rule_name, Option.none, e⟩])
      | Except.ok Value.VNull => (d, [])
      | Except.ok v =>
        match sF d r.target_field v with
        | some d2 => (d2, [⟨statusSuccess, r.rule_name, Option.none, r.target_field⟩])
        | Option.none => (d, [⟨statusFailed, r.rule_name, Option.none, r.target_field⟩])
    if r.apply_to = "" then run
    else
      match E r.apply_to ctx with
      | Except.error e => (d, [⟨statusError, r.rule_name, Option.none, e⟩])
      | Except.ok v => if truthy v then run else (d, [])

/-- CELFieldCompletionEngine.complete: fold the rule list over the
document, concatenating the log; exceptions never escape a rule. -/
def complete (E : EvalOracle) (sF : DocSetter) (sIF : ItemSetter)
    (d : Invoice) : List CompletionRule → Invoice × List LogEntry
  | [] => (d, [])
  | r :: rs =>
    let step := completeRuleStep E sF sIF d r
    let rest := complete E sF sIF step.1 rs
    (rest.1, step.2 ++ rest.2)

end CELFieldCompletionEngine

namespace CELBusinessValidationEngine

/-- One iteration of CELBusinessValidationEngine.validate: inactive rules
contribute nothing; a guard exception or expression exception is caught,
logged as error, and appends a synthesized message; a falsy guard skips;
a falsy expression appends "name: error message"; a truthy expression only
logs passed. -/
def validateRuleStep (E : EvalOracle) (d : Invoice) (r : ValidationRule) :
    List String × List LogEntry :=
  if r.active = false then ([], [])
  else
    let ctx := mkCtx d Option.none
    let run : List String × List LogEntry :=
      match E r.rule_expression ctx with
      | Except.error e =>
        ([r.rule_name ++ ": 规则执行错误 - " ++ e],
         [⟨statusError, r.rule_name, Option.none, e⟩])
      | Except.ok v =>
        if truthy v then ([], [⟨statusPassed, r.rule_name, Option.none, ""⟩])
        else
          ([r.rule_name ++ ": " ++ r.error_message],
           [⟨statusFailedValidation, r.rule_name, Option.none, r.error_message⟩])
    if r.apply_to = "" then run
    else
      match E r.apply_to ctx with
      | Except.error e =>
        ([r.rule_name ++ ": 规则执行错误 - " ++ e],
         [⟨statusError, r.rule_name, Option.none, e⟩])
      | Except.ok v => if truthy v then run else ([], [])

/-- The rule loop of validate: errors and log entries accumulate over every
rule, with no early stop. -/
def validateGo (E : EvalOracle) (d : Invoice) :
    List ValidationRule → List String × List LogEntry
  | [] => ([], [])
  | r :: rs =>
    let step := validateRuleStep E d r
    let rest := validateGo E d rs
    (step.1 ++ rest.1, step.2 ++ rest.2)

/-- CELBusinessValidationEngine.validate: run every rule, then return
(len(errors) == 0, errors). -/
def validate (E : EvalOracle) (d : Invoice) (rules : List ValidationRule) :
    Bool × List String :=
  let res := validateGo E d rules
  (res.1.length == 0, res.1)

end CELBusinessValidationEngine

/-! ## Rule loading (load_rules)

Python sorted(rules, key=lambda r: r.priority, reverse=True) is a stable
sort: descending priorities, ties in input order.  It is modelled by a
stable insertion sort in which a new element is placed after every element
of greater or equal priority. -/

section StableSort

variable {α : Type}

/-- Insert an element after every element of priority greater or equal to
its own: the later-registered of two equal-priority rules stays later. -/
def insertDesc (p : α → Int) (a : α) : List α → List α
  | [] => [a]
  | x :: xs => if p a ≤ p x then x :: insertDesc p a xs else a :: x :: xs

/-- Stable sort by descending priority. -/
def sortDescBy (p : α → Int) (xs : List α) : List α :=
  xs.foldl (fun acc a => insertDesc p a acc) []

end StableSort

namespace CELFieldCompletionEngine

/-- CELFieldCompletionEngine.load_rules:
sorted(rules, key=lambda r: r.priority, reverse=True). -/
def load_rules (rules : List CompletionRule) : List CompletionRule :=
  sortDescBy (fun r => r.priority) rules

end CELFieldCompletionEngine

/-! ## Auxiliary definitions for the statements -/

section GroupingFind

variable {α : Type} {K : Type} [DecidableEq K]

/-- The group of the first entry carrying key k, empty when absent. -/
def findGroup (k : K) : List (K × List α) → List α
  | [] => []
  | (k', g) :: rest => if k' = k then g else findGroup k rest

end GroupingFind

/-- The totals invariant of the spec: the document total is the sum of the
line amounts and the net amount is total minus tax. -/
def InvTotalsOK (inv : Invoice) : Prop :=
  inv.total_amount = sumBy (fun it => it.amount) inv.items ∧
  inv.net_amount = some (inv.total_amount - inv.tax_amount.getD 0)

/-- The guard of a completion rule lets the rule run at a document state:
either there is no guard, or the guard evaluates without exception to a
truthy value. -/
def guardPasses (E : EvalOracle) (d : Invoice) (r : CompletionRule) : Prop :=
  r.apply_to = "" ∨
    ∃ v, E r.apply_to (mkCtx d Option.none) = Except.ok v ∧ truthy v = true

/-- The guard of a completion rule lets the rule run against one item
context. -/
def itemGuardPasses (E : EvalOracle) (d : Invoice) (it : InvoiceItem)
    (r : CompletionRule) : Prop :=
  r.apply_to = "" ∨
    ∃ v, E r.apply_to (mkCtx d (some it)) = Except.ok v ∧ truthy v = true

/-- The guard of a validation rule lets the rule run. -/
def guardPassesV (E : EvalOracle) (d : Invoice) (r : ValidationRule) : Prop :=
  r.apply_to = "" ∨
    ∃ v, E r.apply_to (mkCtx d Option.none) = Except.ok v ∧ truthy v = true

/-! ## Concrete sample data for witnesses and counterexamples -/

/-- Sample party. -/
def mkParty (n : String) (t : Option String) : Party := ⟨n, t, Option.none⟩

/-- Sample line item of a given id, amount and category. -/
def mkItem (i : String) (amt : Rat) (cat : String) : InvoiceItem :=
  ⟨i, "item " ++ i, some ("name " ++ i), 1, amt, amt, Option.none, Option.none, some cat⟩

/-- Sample invoice: customer tax id, supplier tax id, items, stored total. -/
def mkInv (num : String) (ct st : Option String) (items : List InvoiceItem)
    (total : Rat) : Invoice :=
  ⟨num, "VAT", "CN", mkParty "Seller" st, mkParty "Buyer" ct, items, total,
    Option.none, Option.none⟩

/-- C1 counterexample input: stored total 999 but line amounts sum to 10. -/
def invC1a : Invoice := mkInv "A" (some "T1") (some "T2") [mkItem "a" 10 "G"] 999

/-- C1 counterexample input, same tax-party pair and an identical line
(same merge key), stored total again 999. -/
def invC1b : Invoice := mkInv "B" (some "T1") (some "T2") [mkItem "a" 10 "G"] 999

/-- C1 witness input: consistent totals. -/
def invC1wa : Invoice := mkInv "WA" (some "T1") (some "T2") [mkItem "wa" 10 "G"] 10

/-- C1 witness input, same tax-party pair. -/
def invC1wb : Invoice := mkInv "WB" (some "T1") (some "T2") [mkItem "wb" 15 "G"] 15

/-- C3 counterexample input: singleton merge group, single tax category,
stored total 999 inconsistent with its single line amount 10. -/
def invC3 : Invoice := mkInv "C3" (some "T1") (some "T2") [mkItem "c" 10 "G"] 999

/-- C3 witness input: totals invariant holds (net = 10 - 0). -/
def invC3w : Invoice :=
  ⟨"W3", "VAT", "CN", mkParty "Seller" (some "T2"), mkParty "Buyer" (some "T1"),
    [mkItem "w" 10 "G"], 10, Option.none, some 10⟩

/-- C5 counterexample input: pair (a, b_c). -/
def invC5a : Invoice := mkInv "X" (some "a") (some "b_c") [mkItem "x" 10 "G"] 10

/-- C5 counterexample input: pair (a_b, c), distinct from (a, b_c) but with
the same concatenated grouping key a_b_c. -/
def invC5b : Invoice := mkInv "Y" (some "a_b") (some "c") [mkItem "y" 20 "G"] 20

/-- C5 witness input with key P1_P2. -/
def invC5wa : Invoice := mkInv "WX" (some "P1") (some "P2") [mkItem "wx" 10 "G"] 10

/-- C5 witness input with key Q1_Q2. -/
def invC5wb : Invoice := mkInv "WY" (some "Q1") (some "Q2") [mkItem "wy" 20 "G"] 20

/-- C7 witness input: all items of one category. -/
def invC7w : Invoice :=
  mkInv "W7" (some "T1") (some "T2") [mkItem "w1" 10 "G", mkItem "w2" 20 "G"] 30

/-- Oracle raising on the guard expression "has(x" (unbalanced parentheses)
and returning true elsewhere. -/
def oracleErr : EvalOracle := fun e _ =>
  if e = "has(x" then Except.error "unbalanced parenthesis"
  else Except.ok (Value.VBool true)

/-- Oracle returning None (null) for the expression "lookupNull" and true
elsewhere. -/
def oracleNull : EvalOracle := fun e _ =>
  if e = "lookupNull" then Except.ok Value.VNull else Except.ok (Value.VBool true)

/-- Oracle returning false for the expression "failexpr" and true
elsewhere. -/
def oracleFalse : EvalOracle := fun e _ =>
  Except.ok (Value.VBool (if e = "failexpr" then false else true))

/-- Document setter that records nothing and reports success. -/
def docSetterId : DocSetter := fun d _ _ => some d

/-- Item setter that records nothing and reports success. -/
def itemSetterId : ItemSetter := fun it _ _ => some it

/-- C4 witness rule: active, guard "has(x". -/
def ruleC4a : CompletionRule :=
  ⟨"r1", "rule A", "has(x", 100, true, "customer.email", "expr"⟩

/-- C4 witness rule: inactive trailing rule. -/
def ruleC4b : CompletionRule :=
  ⟨"r2", "rule B", "", 50, false, "customer.email", "expr"⟩

/-- C4 witness rule: active items[] rule with the raising guard. -/
def ruleC4c : CompletionRule :=
  ⟨"r3", "rule C", "has(x", 80, true, "items[].tax_rate", "expr"⟩

/-- C8 witness rule: no guard, value expression resolving to null. -/
def ruleC8w : CompletionRule :=
  ⟨"r8", "rule C8", "", 100, true, "customer.email", "lookupNull"⟩

/-- C6 witness rule: no guard, failing boolean expression. -/
def ruleC6w : ValidationRule :=
  ⟨"v1", "金额检查", "", 100, true, "total_amount", "failexpr", "总金额必须大于0"⟩

/-- C9 witness rules. -/
def ruleC9a : CompletionRule := ⟨"p1", "low", "", 1, true, "f", "e"⟩

/-- C9 witness rule of higher priority. -/
def ruleC9b : CompletionRule := ⟨"p2", "high early", "", 2, true, "f", "e"⟩

/-- C9 witness rule of equal priority, registered later. -/
def ruleC9c : CompletionRule := ⟨"p3", "high late", "", 2, false, "f", "e"⟩

/-! # Theorems

First, lemmas about insertion-ordered grouping, sums, the merge engine,
the completion/validation folds and the stable sort; then one theorem per
claim, with witnesses and counterexamples. -/

section GroupingLemmas

variable {α : Type} {K : Type} [DecidableEq K]

theorem groupByKey_concat (key : α → K) (xs : List α) (a : α) :
    groupByKey key (xs ++ [a]) = addToGroup (key a) a (groupByKey key xs) := by
  simp [groupByKey, List.foldl_append]

theorem mem_keys_addToGroup (k0 k : K) (a : α) (acc : List (K × List α)) :
    k0 ∈ (addToGroup k a acc).map Prod.fst ↔ k0 ∈ acc.map Prod.fst ∨ k0 = k := by
  induction acc with
  | nil => simp [addToGroup]
  | cons kg rest ih =>
    obtain ⟨k1, g⟩ := kg
    by_cases h : k1 = k
    · subst h
      simp [addToGroup]
      tauto
    · simp [addToGroup, h, ih]
      tauto

theorem addToGroup_fresh (k : K) (a : α) (acc : List (K × List α))
    (h : k ∉ acc.map Prod.fst) : addToGroup k a acc = acc ++ [(k, [a])] := by
  induction acc with
  | nil => simp [addToGroup]
  | cons kg rest ih =>
    obtain ⟨k1, g⟩ := kg
    simp only [List.map_cons, List.mem_cons] at h
    push_neg at h
    have h1 : k1 ≠ k := fun e => h.1 e.symm
    simp [addToGroup, h1, ih h.2]

theorem nodup_keys_addToGroup (k : K) (a : α) (acc : List (K × List α))
    (h : (acc.map Prod.fst).Nodup) : ((addToGroup k a acc).map Prod.fst).Nodup := by
  induction acc with
  | nil => simp [addToGroup]
  | cons kg rest ih =>
    obtain ⟨k1, g⟩ := kg
    simp only [List.map_cons, List.nodup_cons] at h
    by_cases h1 : k1 = k
    · subst h1
      simpa [addToGroup] using h
    · have hrw : (addToGroup k a ((k1, g) :: rest)).map Prod.fst
          = k1 :: (addToGroup k a rest).map Prod.fst := by simp [addToGroup, h1]
      rw [hrw, List.nodup_cons]
      refine ⟨?_, ih h.2⟩
      rw [mem_keys_addToGroup]
      push_neg
      exact ⟨h.1, h1⟩

end GroupingLemmas

section GroupingLemmasB

variable {α : Type} {K : Type} [DecidableEq K]

theorem nodup_keys_groupByKey (key : α → K) (xs : List α) :
    ((groupByKey key xs).map Prod.fst).Nodup := by
  induction xs using List.reverseRecOn with
  | nil => simp [groupByKey]
  | append_singleton ys y ih =>
    rw [groupByKey_concat]
    exact nodup_keys_addToGroup _ _ _ ih

theorem mem_keys_groupByKey (key : α → K) (xs : List α) (k : K) :
    k ∈ (groupByKey key xs).map Prod.fst ↔ ∃ a ∈ xs, key a = k := by
  induction xs using List.reverseRecOn with
  | nil => simp [groupByKey]
  | append_singleton ys y ih =>
    rw [groupByKey_concat, mem_keys_addToGroup, ih]
    constructor
    · rintro (⟨a, ha, hk⟩ | hk)
      · exact ⟨a, by simp [ha], hk⟩
      · exact ⟨y, by simp, hk.symm⟩
    · rintro ⟨a, ha, hk⟩
      rcases List.mem_append.mp ha with h | h
      · exact Or.inl ⟨a, h, hk⟩
      · simp only [List.mem_singleton] at h
        subst h
        exact Or.inr hk.symm

theorem findGroup_addToGroup_self (k : K) (a : α) (acc : List (K × List α)) :
    findGroup k (addToGroup k a acc) = findGroup k acc ++ [a] := by
  induction acc with
  | nil => simp [addToGroup, findGroup]
  | cons kg rest ih =>
    obtain ⟨k1, g⟩ := kg
    by_cases h : k1 = k
    · subst h; simp [addToGroup, findGroup]
    · simp [addToGroup, findGroup, h, ih]

theorem findGroup_addToGroup_other (k0 k : K) (a : α) (acc : List (K × List α))
    (h : k0 ≠ k) : findGroup k0 (addToGroup k a acc) = findGroup k0 acc := by
  have h2 : ¬ k = k0 := fun e => h e.symm
  induction acc with
  | nil => simp [addToGroup, findGroup, h2]
  | cons kg rest ih =>
    obtain ⟨k1, g⟩ := kg
    by_cases h1 : k1 = k
    · subst h1
      simp [addToGroup, findGroup, h2]
    · by_cases h0 : k1 = k0
      · subst h0; simp [addToGroup, findGroup, h1]
      · simp [addToGroup, findGroup, h1, h0, ih]

theorem findGroup_groupByKey (key : α → K) (xs : List α) (k : K) :
    findGroup k (groupByKey key xs) = xs.filter (fun a => key a == k) := by
  induction xs using List.reverseRecOn with
  | nil => simp [groupByKey, findGroup]
  | append_singleton ys y ih =>
    rw [groupByKey_concat]
    by_cases h : key y = k
    · subst h
      rw [findGroup_addToGroup_self, ih, List.filter_append]
      simp
    · rw [findGroup_addToGroup_other _ _ _ _ (fun e => h e.symm), ih,
        List.filter_append]
      simp [h]

theorem findGroup_eq_of_mem {k : K} {g : List α} {l : List (K × List α)}
    (hnd : (l.map Prod.fst).Nodup) (hm : (k, g) ∈ l) : findGroup k l = g := by
  induction l with
  | nil => simp at hm
  | cons kg rest ih =>
    obtain ⟨k1, g1⟩ := kg
    simp only [List.map_cons, List.nodup_cons] at hnd
    rcases List.mem_cons.mp hm with h | h
    · obtain ⟨e1, e2⟩ := Prod.mk.injEq .. ▸ h
      injection h with e1 e2
      subst e1; subst e2
      simp [findGroup]
    · have hne : k1 ≠ k := by
        intro e
        subst e
        exact hnd.1 (List.mem_map.mpr ⟨(k1, g), h, rfl⟩)
      simp [findGroup, hne, ih hnd.2 h]

theorem group_filter_of_mem {key : α → K} {xs : List α} {k : K} {g : List α}
    (h : (k, g) ∈ groupByKey key xs) : g = xs.filter (fun a => key a == k) := by
  have h1 := findGroup_eq_of_mem (nodup_keys_groupByKey key xs) h
  rw [← h1, findGroup_groupByKey]

theorem groupByKey_key_eq {key : α → K} {xs : List α} {k : K} {g : List α}
    (h : (k, g) ∈ groupByKey key xs) : ∀ a ∈ g, key a = k := by
  intro a ha
  rw [group_filter_of_mem h] at ha
  simpa using (List.mem_filter.mp ha).2

theorem mem_of_mem_group {key : α → K} {xs : List α} {k : K} {g : List α}
    (h : (k, g) ∈ groupByKey key xs) : ∀ a ∈ g, a ∈ xs := by
  intro a ha
  rw [group_filter_of_mem h] at ha
  exact (List.mem_filter.mp ha).1

theorem groupByKey_const {key : α → K} {xs : List α} {k : K}
    (h : ∀ a ∈ xs, key a = k) (hne : xs ≠ []) : groupByKey key xs = [(k, xs)] := by
  induction xs using List.reverseRecOn with
  | nil => exact absurd rfl hne
  | append_singleton ys y ih =>
    rw [groupByKey_concat]
    have hy : key y = k := h y (by simp)
    rcases eq_or_ne ys [] with he | he
    · subst he
      simp [groupByKey, addToGroup, hy]
    · rw [ih (fun a ha => h a (by simp [ha])) he, hy]
      simp [addToGroup]

theorem groupByKey_distinct {key : α → K} {xs : List α}
    (h : xs.Pairwise (fun a b => key a ≠ key b)) :
    groupByKey key xs = xs.map (fun a => (key a, [a])) := by
  induction xs using List.reverseRecOn with
  | nil => simp [groupByKey]
  | append_singleton ys y ih =>
    rw [groupByKey_concat]
    rw [List.pairwise_append] at h
    have hfresh : key y ∉ (groupByKey key ys).map Prod.fst := by
      rw [mem_keys_groupByKey]
      rintro ⟨a, ha, hk⟩
      exact h.2.2 a ha y (by simp) hk
    rw [addToGroup_fresh _ _ _ hfresh, ih h.1]
    simp

end GroupingLemmasB

section SumLemmas

variable {α : Type} {β : Type} {K : Type} [DecidableEq K]

theorem sumBy_append (f : α → Rat) (xs ys : List α) :
    sumBy f (xs ++ ys) = sumBy f xs + sumBy f ys := by
  simp [sumBy]

theorem sumBy_flatMap (f : α → Rat) (h : β → List α) (l : List β) :
    sumBy f (l.flatMap h) = sumBy (fun b => sumBy f (h b)) l := by
  induction l with
  | nil => simp [sumBy]
  | cons x xs ih => simp [sumBy, List.flatMap_cons] at ih ⊢; simp [ih]

theorem sumBy_addToGroup (f : α → Rat) (k : K) (a : α) (acc : List (K × List α)) :
    sumBy (fun kg => sumBy f kg.2) (addToGroup k a acc)
      = sumBy (fun kg => sumBy f kg.2) acc + f a := by
  induction acc with
  | nil => simp [addToGroup, sumBy]
  | cons kg rest ih =>
    obtain ⟨k1, g⟩ := kg
    by_cases h : k1 = k
    · subst h
      simp [addToGroup, sumBy_append, sumBy]
      ring
    · simp only [addToGroup, if_neg h]
      simp [sumBy] at ih ⊢
      rw [ih]
      ring

theorem sumBy_groupByKey (f : α → Rat) (key : α → K) (xs : List α) :
    sumBy (fun kg => sumBy f kg.2) (groupByKey key xs) = sumBy f xs := by
  induction xs using List.reverseRecOn with
  | nil => simp [groupByKey, sumBy]
  | append_singleton ys y ih =>
    rw [groupByKey_concat, sumBy_addToGroup, ih, sumBy_append]
    simp [sumBy]

end SumLemmas

namespace InvoiceMergeEngine

theorem mergeItemGroup_sum_amount (g : List InvoiceItem) :
    sumBy (fun it => it.amount) (mergeItemGroup g) = sumBy (fun it => it.amount) g := by
  match g with
  | [] => rfl
  | [it] => rfl
  | base :: it2 :: rest => simp [mergeItemGroup, sumBy]

theorem mergeItemGroup_sum_tax (g : List InvoiceItem) :
    sumBy (fun it => it.tax_amount.getD 0) (mergeItemGroup g)
      = sumBy (fun it => it.tax_amount.getD 0) g := by
  match g with
  | [] => rfl
  | [it] => rfl
  | base :: it2 :: rest => simp [mergeItemGroup, sumBy]

theorem merge_items_sum_amount (items : List InvoiceItem) :
    sumBy (fun it => it.amount) (_merge_invoice_items items)
      = sumBy (fun it => it.amount) items := by
  rw [_merge_invoice_items, sumBy_flatMap]
  calc sumBy (fun kg => sumBy (fun it => it.amount) (mergeItemGroup kg.2))
        (groupByKey itemMergeKey items)
      = sumBy (fun kg => sumBy (fun it => it.amount) kg.2)
          (groupByKey itemMergeKey items) := by
        unfold sumBy
        congr 1
        exact List.map_congr_left (fun kg _ => mergeItemGroup_sum_amount kg.2)
    _ = sumBy (fun it => it.amount) items := sumBy_groupByKey _ _ _

theorem merge_items_sum_tax (items : List InvoiceItem) :
    sumBy (fun it => it.tax_amount.getD 0) (_merge_invoice_items items)
      = sumBy (fun it => it.tax_amount.getD 0) items := by
  rw [_merge_invoice_items, sumBy_flatMap]
  calc sumBy (fun kg => sumBy (fun it => it.tax_amount.getD 0) (mergeItemGroup kg.2))
        (groupByKey itemMergeKey items)
      = sumBy (fun kg => sumBy (fun it => it.tax_amount.getD 0) kg.2)
          (groupByKey itemMergeKey items) := by
        unfold sumBy
        congr 1
        exact List.map_congr_left (fun kg _ => mergeItemGroup_sum_tax kg.2)
    _ = sumBy (fun it => it.tax_amount.getD 0) items := sumBy_groupByKey _ _ _

end InvoiceMergeEngine

section FlatMapLemmas

variable {α : Type} {β : Type}

theorem flatMap_id_of_singleton {l : List α} {g : α → List α}
    (h : ∀ y ∈ l, g y = [y]) : l.flatMap g = l := by
  induction l with
  | nil => rfl
  | cons x xs ih =>
    rw [List.flatMap_cons, h x (by simp), ih (fun y hy => h y (by simp [hy]))]
    rfl

end FlatMapLemmas

section GroupSize

variable {α : Type} {K : Type} [DecidableEq K]

theorem groupByKey_length_le_one (key : α → K) (xs : List α)
    (h : (groupByKey key xs).length ≤ 1) :
    ∀ a ∈ xs, ∀ b ∈ xs, key a = key b := by
  intro a ha b hb
  have hka : key a ∈ (groupByKey key xs).map Prod.fst :=
    (mem_keys_groupByKey key xs (key a)).mpr ⟨a, ha, rfl⟩
  have hkb : key b ∈ (groupByKey key xs).map Prod.fst :=
    (mem_keys_groupByKey key xs (key b)).mpr ⟨b, hb, rfl⟩
  match hg : groupByKey key xs with
  | [] => rw [hg] at hka; simp at hka
  | [kg] =>
    rw [hg] at hka hkb
    simp at hka hkb
    rw [hka, hkb]
  | kg1 :: kg2 :: rest => rw [hg] at h; simp at h

theorem all_same_key_length_le_one (key : α → K) (xs : List α)
    (h : ∀ a ∈ xs, ∀ b ∈ xs, key a = key b) :
    (groupByKey key xs).length ≤ 1 := by
  match xs with
  | [] => simp [groupByKey]
  | x :: rest =>
    rw [groupByKey_const (k := key x) (fun a ha => h a ha x (by simp)) (by simp)]
    simp

end GroupSize

namespace InvoiceMergeEngine

theorem merge_group_cons_cons (i1 i2 : Invoice) (rest : List Invoice) :
    ∃ m, _merge_invoice_group (i1 :: i2 :: rest) = some m ∧ InvTotalsOK m ∧
      m.total_amount
        = sumBy (fun inv => sumBy (fun it => it.amount) inv.items) (i1 :: i2 :: rest) := by
  refine ⟨_, rfl, ?_, ?_⟩
  · constructor
    · rfl
    · rfl
  · show sumBy (fun it => it.amount)
        (_merge_invoice_items ((i1 :: i2 :: rest).flatMap (fun inv => inv.items))) = _
    rw [merge_items_sum_amount, sumBy_flatMap]

theorem merge_out_cases {invs : List Invoice} {cfg : Option MergeConfig} {m : Invoice}
    (hm : m ∈ _merge_by_tax_party invs cfg) : InvTotalsOK m ∨ m ∈ invs := by
  rw [_merge_by_tax_party] at hm
  by_cases he : invs.isEmpty
  · rw [if_pos he] at hm
    exact Or.inr hm
  rw [if_neg he] at hm
  obtain ⟨kg, hkg, hmem⟩ := List.mem_flatMap.mp hm
  by_cases hl : kg.2.length == 1
  · rw [if_pos hl] at hmem
    exact Or.inr (mem_of_mem_group hkg m hmem)
  rw [if_neg hl] at hmem
  match hg : kg.2 with
  | [] => rw [hg] at hmem; simp [_merge_invoice_group] at hmem
  | [inv] => rw [hg] at hl; simp at hl
  | i1 :: i2 :: grest =>
    rw [hg] at hmem
    obtain ⟨m2, hm2, hok, _⟩ := merge_group_cons_cons i1 i2 grest
    rw [hm2] at hmem
    simp only [Option.toList_some, List.mem_singleton] at hmem
    subst hmem
    exact Or.inl hok

theorem create_split_totals_ok (inv : Invoice) (items : List InvoiceItem)
    (cat : String) : InvTotalsOK (_create_split_invoice inv items cat) := by
  constructor
  · rfl
  · rfl

theorem split_out_cases {inv : Invoice} {out : Invoice}
    (h : out ∈ _split_by_tax_category inv) :
    out = inv ∨
      ∃ kg ∈ groupByKey catOf inv.items, out = _create_split_invoice inv kg.2 kg.1 := by
  rw [_split_by_tax_category] at h
  by_cases hl : (groupByKey catOf inv.items).length ≤ 1
  · rw [if_pos hl] at h
    simp only [List.mem_singleton] at h
    exact Or.inl h
  · rw [if_neg hl] at h
    obtain ⟨kg, hkg, heq⟩ := List.mem_map.mp h
    exact Or.inr ⟨kg, hkg, heq.symm⟩

theorem split_out_totals {inv : Invoice} (hok : InvTotalsOK inv) :
    ∀ out ∈ _split_by_tax_category inv, InvTotalsOK out := by
  intro out hout
  rcases split_out_cases hout with h | ⟨kg, _, h⟩
  · exact h ▸ hok
  · exact h ▸ create_split_totals_ok inv kg.2 kg.1

theorem split_single_category {inv : Invoice}
    (h : ∀ a ∈ inv.items, ∀ b ∈ inv.items, catOf a = catOf b) :
    _split_by_tax_category inv = [inv] := by
  rw [_split_by_tax_category]
  rw [if_pos (all_same_key_length_le_one catOf inv.items h)]

theorem split_out_single_category {inv : Invoice} :
    ∀ out ∈ _split_by_tax_category inv,
      ∀ a ∈ out.items, ∀ b ∈ out.items, catOf a = catOf b := by
  intro out hout
  rw [_split_by_tax_category] at hout
  by_cases hl : (groupByKey catOf inv.items).length ≤ 1
  · rw [if_pos hl] at hout
    simp only [List.mem_singleton] at hout
    subst hout
    exact groupByKey_length_le_one catOf _ hl
  · rw [if_neg hl] at hout
    obtain ⟨kg, hkg, heq⟩ := List.mem_map.mp hout
    subst heq
    intro a ha b hb
    have hitems : (_create_split_invoice inv kg.2 kg.1).items = kg.2 := rfl
    rw [hitems] at ha hb
    rw [groupByKey_key_eq hkg a ha, groupByKey_key_eq hkg b hb]

theorem split_idem_pointwise {inv : Invoice} :
    ∀ out ∈ _split_by_tax_category inv, _split_by_tax_category out = [out] := by
  intro out hout
  exact split_single_category (split_out_single_category out hout)

end InvoiceMergeEngine

namespace CELFieldCompletionEngine

theorem complete_append (E : EvalOracle) (sF : DocSetter) (sIF : ItemSetter)
    (d : Invoice) (l1 l2 : List CompletionRule) :
    complete E sF sIF d (l1 ++ l2)
      = ((complete E sF sIF (complete E sF sIF d l1).1 l2).1,
         (complete E sF sIF d l1).2
           ++ (complete E sF sIF (complete E sF sIF d l1).1 l2).2) := by
  induction l1 generalizing d with
  | nil => simp [complete]
  | cons r rs ih => simp [complete, ih]

theorem completeRuleStep_inactive (E : EvalOracle) (sF : DocSetter)
    (sIF : ItemSetter) (d : Invoice) (r : CompletionRule) (h : r.active = false) :
    completeRuleStep E sF sIF d r = (d, []) := by
  simp [completeRuleStep, h]

theorem complete_filter_active (E : EvalOracle) (sF : DocSetter) (sIF : ItemSetter)
    (d : Invoice) (rs : List CompletionRule) :
    complete E sF sIF d rs = complete E sF sIF d (rs.filter (fun r => r.active)) := by
  induction rs generalizing d with
  | nil => rfl
  | cons r rest ih =>
    by_cases h : r.active
    · simp [complete, List.filter_cons, h, ih]
    · have h0 : r.active = false := by simpa using h
      simp [complete, List.filter_cons, h0, completeRuleStep_inactive, ih]

theorem completeRuleStep_eval_error (E : EvalOracle) (sF : DocSetter)
    (sIF : ItemSetter) (d : Invoice) (r : CompletionRule) (m : String)
    (hact : r.active = true)
    (hni : strStartsWith r.target_field "items[]." = false)
    (herr : (r.apply_to ≠ "" ∧ E r.apply_to (mkCtx d Option.none) = Except.error m)
        ∨ (guardPasses E d r
            ∧ E r.rule_expression (mkCtx d Option.none) = Except.error m)) :
    completeRuleStep E sF sIF d r
      = (d, [⟨statusError, r.rule_name, Option.none, m⟩]) := by
  rw [completeRuleStep]
  rw [hact]
  simp only [Bool.true_eq_false, if_false, hni, Bool.false_eq_true]
  rcases herr with ⟨hne, he⟩ | ⟨hgp, he⟩
  · rw [if_neg hne, he]
  · rcases hgp with hempty | ⟨v, hv, htr⟩
    · rw [if_pos hempty, he]
    · by_cases hne : r.apply_to = ""
      · rw [if_pos hne, he]
      · rw [if_neg hne, hv]
        simp only [htr, if_true]
        rw [he]

theorem completeRuleStep_null (E : EvalOracle) (sF : DocSetter)
    (sIF : ItemSetter) (d : Invoice) (r : CompletionRule)
    (hact : r.active = true)
    (hni : strStartsWith r.target_field "items[]." = false)
    (hgp : guardPasses E d r)
    (hv : E r.rule_expression (mkCtx d Option.none) = Except.ok Value.VNull) :
    completeRuleStep E sF sIF d r = (d, []) := by
  rw [completeRuleStep]
  rw [hact]
  simp only [Bool.true_eq_false, if_false, hni, Bool.false_eq_true]
  rcases hgp with hempty | ⟨v, hvv, htr⟩
  · rw [if_pos hempty, hv]
  · by_cases hne : r.apply_to = ""
    · rw [if_pos hne, hv]
    · rw [if_neg hne, hvv]
      simp only [htr, if_true]
      rw [hv]

theorem processOneItem_null (E : EvalOracle) (sIF : ItemSetter) (d : Invoice)
    (r : CompletionRule) (fld : String) (idx : Nat) (it : InvoiceItem)
    (hgp : itemGuardPasses E d it r)
    (hv : E r.rule_expression (mkCtx d (some it)) = Except.ok Value.VNull) :
    processOneItem E sIF d r fld idx it = (it, []) := by
  rw [processOneItem]
  rcases hgp with hempty | ⟨v, hvv, htr⟩
  · rw [if_pos hempty, hv]
  · by_cases hne : r.apply_to = ""
    · rw [if_pos hne, hv]
    · rw [if_neg hne, hvv]
      simp only [htr, if_true]
      rw [hv]

theorem processOneItem_eval_error (E : EvalOracle) (sIF : ItemSetter) (d : Invoice)
    (r : CompletionRule) (fld : String) (idx : Nat) (it : InvoiceItem) (m : String)
    (herr : (r.apply_to ≠ "" ∧ E r.apply_to (mkCtx d (some it)) = Except.error m)
      ∨ (itemGuardPasses E d it r
        ∧ E r.rule_expression (mkCtx d (some it)) = Except.error m)) :
    processOneItem E sIF d r fld idx it
      = (it, [⟨statusError, r.rule_name, some idx, m⟩]) := by
  rw [processOneItem]
  rcases herr with ⟨hne, he⟩ | ⟨hgp, he⟩
  · rw [if_neg hne, he]
  · rcases hgp with hempty | ⟨v, hvv, htr⟩
    · rw [if_pos hempty, he]
    · by_cases hne : r.apply_to = ""
      · rw [if_pos hne, he]
      · rw [if_neg hne, hvv]
        simp only [htr, if_true]
        rw [he]

theorem processItemsGo_const_error (E : EvalOracle) (sIF : ItemSetter)
    (r : CompletionRule) (fld : String) (base : Invoice) (m : String)
    (hstep : ∀ (d : Invoice) (it : InvoiceItem) (idx : Nat),
      processOneItem E sIF d r fld idx it
        = (it, [⟨statusError, r.rule_name, some idx, m⟩])) :
    ∀ (todo done : List InvoiceItem) (i : Nat),
      processItemsGo E sIF r fld base done todo i
        = (done ++ todo, errorEntriesFor r m todo.length i) := by
  intro todo
  induction todo with
  | nil =>
    intro done i
    simp [processItemsGo, errorEntriesFor]
  | cons it rest ih =>
    intro done i
    rw [processItemsGo]
    simp only [hstep, ih, List.length_cons, errorEntriesFor, List.append_assoc,
      List.singleton_append]

theorem process_items_rule_const_error (E : EvalOracle) (sIF : ItemSetter)
    (d : Invoice) (r : CompletionRule) (m : String)
    (hstep : ∀ (d2 : Invoice) (it : InvoiceItem) (idx : Nat),
      processOneItem E sIF d2 r (stripItemsMarker r.target_field) idx it
        = (it, [⟨statusError, r.rule_name, some idx, m⟩])) :
    _process_items_rule E sIF d r = (d, errorEntriesFor r m d.items.length 0) := by
  rw [_process_items_rule]
  by_cases he : d.items.isEmpty
  · rw [if_pos he]
    have hnil : d.items = [] := by simpa using he
    rw [hnil]
    rfl
  · rw [if_neg he]
    simp only [processItemsGo_const_error E sIF r (stripItemsMarker r.target_field)
      d m hstep d.items [] 0, List.nil_append]

theorem completeRuleStep_items_error (E : EvalOracle) (sF : DocSetter)
    (sIF : ItemSetter) (d : Invoice) (r : CompletionRule) (m : String)
    (hact : r.active = true)
    (hitems : strStartsWith r.target_field "items[]." = true)
    (herr : ∀ (d2 : Invoice) (it : InvoiceItem),
      (r.apply_to ≠ "" ∧ E r.apply_to (mkCtx d2 (some it)) = Except.error m)
      ∨ (itemGuardPasses E d2 it r
        ∧ E r.rule_expression (mkCtx d2 (some it)) = Except.error m)) :
    completeRuleStep E sF sIF d r = (d, errorEntriesFor r m d.items.length 0) := by
  rw [completeRuleStep]
  rw [hact]
  simp only [Bool.true_eq_false, if_false, hitems, if_true]
  exact process_items_rule_const_error E sIF d r m
    (fun d2 it idx => processOneItem_eval_error E sIF d2 r
      (stripItemsMarker r.target_field) idx it m (herr d2 it))

theorem complete_middle_step (E : EvalOracle) (sF : DocSetter) (sIF : ItemSetter)
    (doc : Invoice) (pre post : List CompletionRule) (r : CompletionRule)
    (L : List LogEntry)
    (hstep : completeRuleStep E sF sIF (complete E sF sIF doc pre).1 r
      = ((complete E sF sIF doc pre).1, L)) :
    complete E sF sIF doc (pre ++ r :: post)
      = ((complete E sF sIF doc (pre ++ post)).1,
         (complete E sF sIF doc pre).2 ++ L
           ++ (complete E sF sIF (complete E sF sIF doc pre).1 post).2) := by
  rw [complete_append E sF sIF doc pre (r :: post),
    complete_append E sF sIF doc pre post]
  simp only [complete, hstep, List.append_assoc]

end CELFieldCompletionEngine

namespace CELBusinessValidationEngine

theorem validateGo_errors_flatMap (E : EvalOracle) (d : Invoice)
    (rs : List ValidationRule) :
    (validateGo E d rs).1 = rs.flatMap (fun r => (validateRuleStep E d r).1) := by
  induction rs with
  | nil => rfl
  | cons r rest ih => simp [validateGo, ih]

theorem validateRuleStep_failed (E : EvalOracle) (d : Invoice) (r : ValidationRule)
    (v : Value) (hact : r.active = true) (hgp : guardPassesV E d r)
    (hv : E r.rule_expression (mkCtx d Option.none) = Except.ok v)
    (hf : truthy v = false) :
    (validateRuleStep E d r).1 = [r.rule_name ++ ": " ++ r.error_message] := by
  rw [validateRuleStep]
  rw [hact]
  simp only [Bool.true_eq_false, if_false]
  rcases hgp with hempty | ⟨w, hw, htr⟩
  · rw [if_pos hempty, hv]
    simp [hf]
  · by_cases hne : r.apply_to = ""
    · rw [if_pos hne, hv]
      simp [hf]
    · rw [if_neg hne, hw]
      simp only [htr, if_true]
      rw [hv]
      simp [hf]

theorem validate_isValid_iff (E : EvalOracle) (d : Invoice)
    (rs : List ValidationRule) :
    (validate E d rs).1 = true ↔ (validate E d rs).2 = [] := by
  rw [validate]
  simp [List.length_eq_zero]

end CELBusinessValidationEngine

section SortLemmas

variable {α : Type} (p : α → Int)

theorem insertDesc_perm (a : α) (l : List α) : (insertDesc p a l).Perm (a :: l) := by
  induction l with
  | nil => rfl
  | cons x xs ih =>
    rw [insertDesc]
    by_cases h : p a ≤ p x
    · rw [if_pos h]
      exact (ih.cons x).trans (List.Perm.swap a x xs)
    · rw [if_neg h]

theorem foldl_insertDesc_perm (xs acc : List α) :
    (List.foldl (fun acc a => insertDesc p a acc) acc xs).Perm (acc ++ xs) := by
  induction xs generalizing acc with
  | nil => simp
  | cons x xs ih =>
    rw [List.foldl_cons]
    refine (ih (insertDesc p x acc)).trans ?_
    refine (List.Perm.append_right xs (insertDesc_perm p x acc)).trans ?_
    exact List.perm_middle.symm

theorem sortDescBy_perm (xs : List α) : (sortDescBy p xs).Perm xs := by
  simpa using foldl_insertDesc_perm p xs []

theorem insertDesc_sorted (a : α) (l : List α)
    (h : l.Pairwise (fun x y => p y ≤ p x)) :
    (insertDesc p a l).Pairwise (fun x y => p y ≤ p x) := by
  induction l with
  | nil => simp [insertDesc]
  | cons x xs ih =>
    rw [List.pairwise_cons] at h
    rw [insertDesc]
    by_cases hle : p a ≤ p x
    · rw [if_pos hle]
      rw [List.pairwise_cons]
      refine ⟨?_, ih h.2⟩
      intro y hy
      have := (insertDesc_perm p a xs).mem_iff.mp hy
      rcases List.mem_cons.mp this with he | hm
      · exact he ▸ hle
      · exact h.1 y hm
    · rw [if_neg hle]
      rw [List.pairwise_cons]
      refine ⟨?_, List.pairwise_cons.mpr h⟩
      intro y hy
      rcases List.mem_cons.mp hy with he | hm
      · exact he ▸ le_of_lt (lt_of_not_le hle)
      · exact le_trans (h.1 y hm) (le_of_lt (lt_of_not_le hle))

theorem sortDescBy_sorted (xs : List α) :
    (sortDescBy p xs).Pairwise (fun x y => p y ≤ p x) := by
  have main : ∀ (ys acc : List α), acc.Pairwise (fun x y => p y ≤ p x) →
      (List.foldl (fun acc a => insertDesc p a acc) acc ys).Pairwise
        (fun x y => p y ≤ p x) := by
    intro ys
    induction ys with
    | nil => intro acc h; exact h
    | cons x xs ih =>
      intro acc h
      rw [List.foldl_cons]
      exact ih _ (insertDesc_sorted p x acc h)
  exact main xs [] (by simp)

theorem filter_eq_nil_of_lt (k : Int) (x : α) (xs : List α)
    (h : (x :: xs).Pairwise (fun a b => p b ≤ p a)) (hlt : p x < k) :
    (x :: xs).filter (fun a => p a == k) = [] := by
  rw [List.pairwise_cons] at h
  rw [List.filter_eq_nil_iff]
  intro a ha
  have hle : p a ≤ p x := by
    rcases List.mem_cons.mp ha with he | hm
    · exact he ▸ le_refl (p x)
    · exact h.1 a hm
  simp only [beq_iff_eq]
  intro e
  exact absurd (lt_of_le_of_lt hle hlt) (e ▸ lt_irrefl (p a))

theorem insertDesc_filter (k : Int) (a : α) (l : List α)
    (h : l.Pairwise (fun x y => p y ≤ p x)) :
    (insertDesc p a l).filter (fun x => p x == k)
      = if p a == k then l.filter (fun x => p x == k) ++ [a]
        else l.filter (fun x => p x == k) := by
  induction l with
  | nil =>
    rw [insertDesc]
    by_cases hk : p a == k
    · simp [List.filter_cons, hk]
    · simp [List.filter_cons, hk]
  | cons x xs ih =>
    rw [List.pairwise_cons] at h
    rw [insertDesc]
    by_cases hle : p a ≤ p x
    · rw [if_pos hle]
      rw [List.filter_cons, List.filter_cons]
      by_cases hx : (p x == k)
      · simp only [hx, if_true]
        rw [ih h.2]
        by_cases hk : p a == k
        · simp [hk]
        · simp [hk]
      · simp only [hx, Bool.false_eq_true, if_false]
        rw [ih h.2]
    · rw [if_neg hle]
      have hlt : p x < p a := lt_of_not_le hle
      by_cases hk : p a == k
      · have hke : p a = k := by simpa using hk
        have hnil : (x :: xs).filter (fun a => p a == k) = [] :=
          filter_eq_nil_of_lt p k x xs (List.pairwise_cons.mpr h) (hke ▸ hlt)
        rw [List.filter_cons]
        simp only [hk, if_true, hnil]
        simp [hnil]
      · rw [List.filter_cons]
        simp only [hk, Bool.false_eq_true, if_false]

theorem sortDescBy_filter (k : Int) (xs : List α) :
    (sortDescBy p xs).filter (fun x => p x == k) = xs.filter (fun x => p x == k) := by
  have main : ∀ (ys acc : List α), acc.Pairwise (fun x y => p y ≤ p x) →
      (List.foldl (fun acc a => insertDesc p a acc) acc ys).filter (fun x => p x == k)
        = acc.filter (fun x => p x == k) ++ ys.filter (fun x => p x == k) := by
    intro ys
    induction ys with
    | nil => intro acc h; simp
    | cons x xs ih =>
      intro acc h
      rw [List.foldl_cons, ih _ (insertDesc_sorted p x acc h),
        insertDesc_filter p k x acc h, List.filter_cons]
      by_cases hk : p x == k
      · simp [hk]
      · simp [hk]
  simpa [sortDescBy] using main xs [] (by simp)

end SortLemmas

/-! ## Claim theorems -/

/-- Claim C2: for every field path and every evaluation context, has(path)
is false exactly when the resolved value is null (including an unresolvable
path) or the empty string, and true for every other value, in particular
for integer and decimal zero. -/
theorem C2_has_field_convention (path : String) (ctx : List (String × Value)) :
    (SimpleExpressionEvaluator._has_field path ctx = false ↔
      SimpleExpressionEvaluator._get_field_value_from_context path ctx = Value.VNull ∨
      SimpleExpressionEvaluator._get_field_value_from_context path ctx = Value.VStr "")
    ∧ (∀ n : Int,
        SimpleExpressionEvaluator._get_field_value_from_context path ctx = Value.VInt n →
        SimpleExpressionEvaluator._has_field path ctx = true)
    ∧ (∀ q : Rat,
        SimpleExpressionEvaluator._get_field_value_from_context path ctx = Value.VDec q →
        SimpleExpressionEvaluator._has_field path ctx = true) := by
  refine ⟨?_, ?_, ?_⟩
  · rw [SimpleExpressionEvaluator._has_field]
    rcases hv : SimpleExpressionEvaluator._get_field_value_from_context path ctx with
      _ | b | n | q | s | fields
    · simp
    · simp
    · simp
    · simp
    · by_cases hs : s = ""
      · subst hs; simp
      · simp [hs]
    · simp
  · intro n hv
    rw [SimpleExpressionEvaluator._has_field, hv]
  · intro q hv
    rw [SimpleExpressionEvaluator._has_field, hv]

/-- Claim C2 witness: a field holding integer zero is present, a missing
field is absent. -/
theorem C2_witness :
    SimpleExpressionEvaluator._has_field "flag" [("flag", Value.VInt 0)] = true ∧
    SimpleExpressionEvaluator._has_field "missing" [("flag", Value.VInt 0)] = false :=
  ⟨(C2_has_field_convention "flag" [("flag", Value.VInt 0)]).2.1 0 rfl,
   (C2_has_field_convention "missing" [("flag", Value.VInt 0)]).1.mpr (Or.inl rfl)⟩

namespace InvoiceMergeEngine

/-- Claim C10: the strategy argument of merge_and_split and merge has no
effect: the engine substitutes the fixed BY_TAX_PARTY strategy, so any two
strategies yield the same result, and the merge step is always the
by-tax-party merge. -/
theorem C10_strategy_irrelevant (invs : List Invoice) (s1 s2 : MergeStrategy)
    (mc sc cfg : Option MergeConfig) :
    merge_and_split invs s1 mc sc = merge_and_split invs s2 mc sc
    ∧ merge invs s1 cfg = merge invs s2 cfg
    ∧ _execute_merge invs s1 cfg = _merge_by_tax_party invs cfg :=
  ⟨rfl, rfl, rfl⟩

/-- Claim C5 (amended): merge returns the input unchanged whenever the
concatenated grouping keys customer_tax_no + underscore + supplier_tax_no
are pairwise distinct.  (Distinctness of the (customer, supplier) pairs
themselves is not enough: the underscore join can collide, see the
counterexample.) -/
theorem C5_merge_distinct_keys_identity (invs : List Invoice) (s : MergeStrategy)
    (cfg : Option MergeConfig)
    (h : invs.Pairwise (fun a b => invoiceGroupKey a ≠ invoiceGroupKey b)) :
    merge invs s cfg = invs := by
  rw [merge, _execute_merge, _merge_by_tax_party]
  by_cases he : invs.isEmpty
  · rw [if_pos he]
  · rw [if_neg he, groupByKey_distinct h]
    have main : ∀ l : List Invoice,
        (l.map (fun a => (invoiceGroupKey a, [a]))).flatMap
          (fun kg => if kg.2.length == 1 then kg.2
            else (_merge_invoice_group kg.2).toList) = l := by
      intro l
      induction l with
      | nil => rfl
      | cons x xs ih => simp only [List.map_cons, List.flatMap_cons, ih]; rfl
    exact main invs

/-- Claim C5 counterexample: the pairs (a, b_c) and (a_b, c) are distinct,
yet both concatenate to the key a_b_c, so merge merges the two invoices
into one instead of returning the batch unchanged. -/
theorem C5_counterexample :
    (merge [invC5a, invC5b] MergeStrategy.BY_TAX_PARTY Option.none).length = 1
    ∧ (invC5a.customer.tax_no, invC5a.supplier.tax_no)
        ≠ (invC5b.customer.tax_no, invC5b.supplier.tax_no) := by
  constructor
  · rfl
  · decide

/-- Claim C5 witness: two invoices with distinct keys pass through merge
unchanged. -/
theorem C5_witness :
    merge [invC5wa, invC5wb] MergeStrategy.BY_TAX_PARTY Option.none
      = [invC5wa, invC5wb] :=
  C5_merge_distinct_keys_identity [invC5wa, invC5wb] MergeStrategy.BY_TAX_PARTY
    Option.none (by decide)

end InvoiceMergeEngine

theorem sumBy_congr {α : Type} {f g : α → Rat} {l : List α}
    (h : ∀ x ∈ l, f x = g x) : sumBy f l = sumBy g l := by
  unfold sumBy
  rw [List.map_congr_left h]

namespace InvoiceMergeEngine

/-- Claim C1 (amended): over N greater-equal 2 invoices sharing one
(customer tax id, supplier tax id) pair, merge returns exactly one invoice;
its total is recomputed from the merged line items, so it equals the exact
sum of the inputs' totals provided each input total equals the sum of its
own line amounts (without that hypothesis the claim fails, see the
counterexample). -/
theorem C1_merge_shared_pair_total (invs : List Invoice) (s : MergeStrategy)
    (cfg : Option MergeConfig) (hlen : 2 ≤ invs.length)
    (hpair : ∀ a ∈ invs, ∀ b ∈ invs,
      a.customer.tax_no = b.customer.tax_no ∧ a.supplier.tax_no = b.supplier.tax_no)
    (htot : ∀ inv ∈ invs, inv.total_amount = sumBy (fun it => it.amount) inv.items) :
    ∃ m, merge invs s cfg = [m]
      ∧ m.total_amount = sumBy (fun inv => inv.total_amount) invs := by
  match invs, hlen with
  | i1 :: i2 :: rest, _ =>
    have hkey : ∀ a ∈ i1 :: i2 :: rest, invoiceGroupKey a = invoiceGroupKey i1 := by
      intro a ha
      obtain ⟨hc, hs⟩ := hpair a ha i1 (by simp)
      rw [invoiceGroupKey, invoiceGroupKey, hc, hs]
    obtain ⟨m, hm, _, htotal⟩ := merge_group_cons_cons i1 i2 rest
    refine ⟨m, ?_, ?_⟩
    · rw [merge, _execute_merge, _merge_by_tax_party,
        if_neg (by simp : ¬(i1 :: i2 :: rest).isEmpty = true),
        groupByKey_const hkey (by simp)]
      simp only [List.flatMap_cons, List.flatMap_nil, List.append_nil]
      rw [if_neg (by simp : ¬((i1 :: i2 :: rest).length == 1) = true), hm]
      rfl
    · rw [htotal]
      exact (sumBy_congr (fun inv hinv => (htot inv hinv).symm))

/-- Claim C1 counterexample: two invoices sharing a pair, each with stored
total 999 but a single line of amount 10; merge recomputes the total from
the lines, producing 20, not the sum 1998 of the input totals. -/
theorem C1_counterexample :
    (merge [invC1a, invC1b] MergeStrategy.BY_TAX_PARTY Option.none).map
        (fun inv => inv.total_amount) = [(20 : Rat)]
    ∧ invC1a.total_amount + invC1b.total_amount ≠ (20 : Rat) := by
  constructor
  · show [sumBy (fun it => it.amount)
      (_merge_invoice_items ((([invC1a, invC1b] : List Invoice)).flatMap
        (fun inv => inv.items)))] = [(20 : Rat)]
    norm_num [invC1a, invC1b, mkInv, mkItem, _merge_invoice_items, groupByKey,
      addToGroup, itemMergeKey, taxRateKeyStr, mergeItemGroup, sumBy]
  · norm_num [invC1a, invC1b, mkInv]

/-- Claim C1 witness: two consistent invoices sharing a pair merge into one
invoice totalling 25. -/
theorem C1_witness :
    ∃ m, merge [invC1wa, invC1wb] MergeStrategy.BY_TAX_PARTY Option.none = [m]
      ∧ m.total_amount = sumBy (fun inv => inv.total_amount) [invC1wa, invC1wb] :=
  C1_merge_shared_pair_total [invC1wa, invC1wb] MergeStrategy.BY_TAX_PARTY
    Option.none (by decide) (by decide)
    (by
      intro inv hinv
      rcases List.mem_cons.mp hinv with h | h
      · subst h; norm_num [invC1wa, mkInv, mkItem, sumBy]
      · rcases List.mem_cons.mp h with h2 | h2
        · subst h2; norm_num [invC1wb, mkInv, mkItem, sumBy]
        · simp at h2)

end InvoiceMergeEngine

namespace InvoiceMergeEngine

/-- Claim C3 (amended): merge_and_split preserves the totals invariant
(total equals the sum of the line amounts, net equals total minus tax):
every output satisfies it provided every input does.  Invoices created by
merging or splitting satisfy it unconditionally; invoices in a singleton
merge group with a single tax category pass through both phases unchanged,
so for them the hypothesis on the inputs is needed (see the
counterexample). -/
theorem C3_totals_invariant (invs : List Invoice) (s : MergeStrategy)
    (mc sc : Option MergeConfig) (h : ∀ inv ∈ invs, InvTotalsOK inv) :
    ∀ out ∈ merge_and_split invs s mc sc, InvTotalsOK out := by
  intro out hout
  rw [merge_and_split, _execute_split] at hout
  obtain ⟨m, hm, hout2⟩ := List.mem_flatMap.mp hout
  have hmok : InvTotalsOK m := by
    rw [_execute_merge] at hm
    rcases merge_out_cases hm with hok | hmem
    · exact hok
    · exact h m hmem
  exact split_out_totals hmok out hout2

/-- Claim C3 counterexample: an invoice in a singleton merge group with a
single tax category passes through merge_and_split unchanged, keeping its
stored total 999 although its only line amounts to 10, so the output
violates total = sum of line amounts. -/
theorem C3_counterexample :
    merge_and_split [invC3] MergeStrategy.BY_TAX_PARTY Option.none Option.none
      = [invC3]
    ∧ ¬ InvTotalsOK invC3 := by
  constructor
  · rfl
  · intro hok
    have h1 := hok.1
    norm_num [invC3, mkInv, mkItem, sumBy] at h1

/-- Claim C3 witness: a consistent invoice passes through and every output
of merge_and_split satisfies the totals invariant. -/
theorem C3_witness :
    InvTotalsOK invC3w
    ∧ merge_and_split [invC3w] MergeStrategy.BY_TAX_PARTY Option.none Option.none
        = [invC3w] := by
  have heq : merge_and_split [invC3w] MergeStrategy.BY_TAX_PARTY Option.none
      Option.none = [invC3w] := rfl
  have hP : ∀ inv ∈ [invC3w], InvTotalsOK inv := by
    intro inv hinv
    rw [List.mem_singleton] at hinv
    subst hinv
    constructor
    · norm_num [invC3w, mkItem, sumBy]
    · norm_num [invC3w, mkItem]
  refine ⟨?_, heq⟩
  exact C3_totals_invariant [invC3w] MergeStrategy.BY_TAX_PARTY Option.none
    Option.none hP invC3w (by rw [heq]; simp)

/-- Claim C7: split is idempotent.  An invoice whose items all carry one
tax category (items with no category count as the uncategorised marker)
passes through split unchanged; split of split output is split output; and
a multi-category invoice is split into one invoice per category, carrying
exactly that category's lines (the filter of the original lines), the id
suffixed by the category, recomputed totals, and the original header
(supplier and customer) as a deep copy. -/
theorem C7_split_idempotent :
    (∀ inv : Invoice, (∀ a ∈ inv.items, ∀ b ∈ inv.items, catOf a = catOf b) →
      _split_by_tax_category inv = [inv])
    ∧ (∀ (invs : List Invoice) (c1 c2 : Option MergeConfig),
        split (split invs c1) c2 = split invs c1)
    ∧ (∀ inv : Invoice, ¬ (groupByKey catOf inv.items).length ≤ 1 →
        _split_by_tax_category inv
          = (groupByKey catOf inv.items).map
              (fun kg => _create_split_invoice inv kg.2 kg.1)
        ∧ ∀ kg ∈ groupByKey catOf inv.items,
            kg.2 = inv.items.filter (fun it => catOf it == kg.1)
            ∧ (_create_split_invoice inv kg.2 kg.1).items = kg.2
            ∧ (_create_split_invoice inv kg.2 kg.1).invoice_number
                = inv.invoice_number ++ "_" ++ kg.1
            ∧ InvTotalsOK (_create_split_invoice inv kg.2 kg.1)
            ∧ (_create_split_invoice inv kg.2 kg.1).supplier = inv.supplier
            ∧ (_create_split_invoice inv kg.2 kg.1).customer = inv.customer) := by
  refine ⟨?_, ?_, ?_⟩
  · intro inv h
    exact split_single_category h
  · intro invs c1 c2
    rw [split, split, _execute_split, _execute_split]
    apply flatMap_id_of_singleton
    intro y hy
    obtain ⟨x, hx, hyx⟩ := List.mem_flatMap.mp hy
    exact split_idem_pointwise y hyx
  · intro inv hl
    refine ⟨by rw [_split_by_tax_category, if_neg hl], ?_⟩
    intro kg hkg
    exact ⟨group_filter_of_mem hkg, rfl, rfl,
      create_split_totals_ok inv kg.2 kg.1, rfl, rfl⟩

/-- Claim C7 witness: a two-line single-category invoice passes through
split unchanged, and split is idempotent on a concrete batch. -/
theorem C7_witness :
    _split_by_tax_category invC7w = [invC7w]
    ∧ split (split [invC7w] Option.none) Option.none
        = split [invC7w] Option.none :=
  ⟨C7_split_idempotent.1 invC7w (by decide),
   C7_split_idempotent.2.1 [invC7w] Option.none Option.none⟩

end InvoiceMergeEngine

/-- Claim C4: a per-rule evaluation exception is caught at the
rule-application boundary.  For a document-level rule, a raising guard (or
a passing guard and a raising value expression) yields exactly one ERROR
log entry for the rule, leaves the document untouched by that rule (the
final document equals the run without it), and every remaining rule still
runs.  For an items[] rule whose guard or value expression raises on each
item context, one ERROR entry is logged per item, the document is
untouched, and every remaining rule still runs; the per-item step is
settled in general.  complete is a total function, so the exception never
propagates. -/
theorem C4_completion_error_isolated (E : EvalOracle) (sF : DocSetter)
    (sIF : ItemSetter) (doc : Invoice) (pre post : List CompletionRule)
    (r : CompletionRule) (m : String)
    (hact : r.active = true) :
    (strStartsWith r.target_field "items[]." = false →
      ((r.apply_to ≠ ""
          ∧ E r.apply_to
              (mkCtx (CELFieldCompletionEngine.complete E sF sIF doc pre).1
                Option.none)
            = Except.error m)
        ∨ (guardPasses E (CELFieldCompletionEngine.complete E sF sIF doc pre).1 r
          ∧ E r.rule_expression
              (mkCtx (CELFieldCompletionEngine.complete E sF sIF doc pre).1
                Option.none)
            = Except.error m)) →
      CELFieldCompletionEngine.complete E sF sIF doc (pre ++ r :: post)
        = ((CELFieldCompletionEngine.complete E sF sIF doc (pre ++ post)).1,
           (CELFieldCompletionEngine.complete E sF sIF doc pre).2
             ++ [⟨statusError, r.rule_name, Option.none, m⟩]
             ++ (CELFieldCompletionEngine.complete E sF sIF
                  (CELFieldCompletionEngine.complete E sF sIF doc pre).1 post).2))
    ∧ (strStartsWith r.target_field "items[]." = true →
      (∀ (d2 : Invoice) (it : InvoiceItem),
        (r.apply_to ≠ "" ∧ E r.apply_to (mkCtx d2 (some it)) = Except.error m)
        ∨ (itemGuardPasses E d2 it r
          ∧ E r.rule_expression (mkCtx d2 (some it)) = Except.error m)) →
      CELFieldCompletionEngine.complete E sF sIF doc (pre ++ r :: post)
        = ((CELFieldCompletionEngine.complete E sF sIF doc (pre ++ post)).1,
           (CELFieldCompletionEngine.complete E sF sIF doc pre).2
             ++ errorEntriesFor r m
                  (CELFieldCompletionEngine.complete E sF sIF doc pre).1.items.length 0
             ++ (CELFieldCompletionEngine.complete E sF sIF
                  (CELFieldCompletionEngine.complete E sF sIF doc pre).1 post).2))
    ∧ (∀ (d : Invoice) (it : InvoiceItem) (fld : String) (idx : Nat) (m2 : String),
        ((r.apply_to ≠ "" ∧ E r.apply_to (mkCtx d (some it)) = Except.error m2)
          ∨ (itemGuardPasses E d it r
            ∧ E r.rule_expression (mkCtx d (some it)) = Except.error m2)) →
        CELFieldCompletionEngine.processOneItem E sIF d r fld idx it
          = (it, [⟨statusError, r.rule_name, some idx, m2⟩])) := by
  refine ⟨?_, ?_, ?_⟩
  · intro hni herr
    exact CELFieldCompletionEngine.complete_middle_step E sF sIF doc pre post r _
      (CELFieldCompletionEngine.completeRuleStep_eval_error E sF sIF
        (CELFieldCompletionEngine.complete E sF sIF doc pre).1 r m hact hni herr)
  · intro hitems herr
    exact CELFieldCompletionEngine.complete_middle_step E sF sIF doc pre post r _
      (CELFieldCompletionEngine.completeRuleStep_items_error E sF sIF
        (CELFieldCompletionEngine.complete E sF sIF doc pre).1 r m hact hitems herr)
  · intro d it fld idx m2 herr
    exact CELFieldCompletionEngine.processOneItem_eval_error E sIF d r fld idx it m2
      herr

/-- Claim C4 witness: a guard with unbalanced parentheses makes its
document-level rule log one ERROR entry with the document unchanged and
the following (inactive) rule still processed, and makes an items[] rule
log one ERROR entry per item with the document unchanged. -/
theorem C4_witness :
    CELFieldCompletionEngine.complete oracleErr docSetterId itemSetterId invC7w
        [ruleC4a, ruleC4b]
      = (invC7w, [⟨statusError, "rule A", Option.none, "unbalanced parenthesis"⟩])
    ∧ CELFieldCompletionEngine.complete oracleErr docSetterId itemSetterId invC7w
        [ruleC4c]
      = (invC7w,
         [⟨statusError, "rule C", some 0, "unbalanced parenthesis"⟩,
          ⟨statusError, "rule C", some 1, "unbalanced parenthesis"⟩]) := by
  constructor
  · have h := (C4_completion_error_isolated oracleErr docSetterId itemSetterId
      invC7w [] [ruleC4b] ruleC4a "unbalanced parenthesis" rfl).1 (by decide)
      (Or.inl ⟨by decide, rfl⟩)
    simpa [CELFieldCompletionEngine.complete,
      CELFieldCompletionEngine.completeRuleStep, ruleC4a, ruleC4b] using h
  · have h := (C4_completion_error_isolated oracleErr docSetterId itemSetterId
      invC7w [] [] ruleC4c "unbalanced parenthesis" rfl).2.1 (by decide)
      (fun d2 it => Or.inl ⟨by decide, rfl⟩)
    simpa [CELFieldCompletionEngine.complete, errorEntriesFor, ruleC4c, invC7w,
      mkInv, mkItem] using h

/-- Claim C8: a completion rule whose value expression evaluates to null
writes nothing: the rule step returns the document unchanged with an empty
log (so no successful-write entry exists for the rule), the whole run
equals the run without the rule, and the same holds per item for items[]
rules; no exception is raised (the step is a total function). -/
theorem C8_null_value_writes_nothing (E : EvalOracle) (sF : DocSetter)
    (sIF : ItemSetter) (doc : Invoice) (pre post : List CompletionRule)
    (r : CompletionRule)
    (hact : r.active = true)
    (hni : strStartsWith r.target_field "items[]." = false)
    (hgp : guardPasses E (CELFieldCompletionEngine.complete E sF sIF doc pre).1 r)
    (hv : E r.rule_expression
        (mkCtx (CELFieldCompletionEngine.complete E sF sIF doc pre).1 Option.none)
      = Except.ok Value.VNull) :
    CELFieldCompletionEngine.completeRuleStep E sF sIF
        (CELFieldCompletionEngine.complete E sF sIF doc pre).1 r
      = ((CELFieldCompletionEngine.complete E sF sIF doc pre).1, [])
    ∧ CELFieldCompletionEngine.complete E sF sIF doc (pre ++ r :: post)
        = CELFieldCompletionEngine.complete E sF sIF doc (pre ++ post)
    ∧ (∀ (d : Invoice) (it : InvoiceItem) (fld : String) (idx : Nat)
        (r2 : CompletionRule), itemGuardPasses E d it r2 →
        E r2.rule_expression (mkCtx d (some it)) = Except.ok Value.VNull →
        CELFieldCompletionEngine.processOneItem E sIF d r2 fld idx it = (it, [])) := by
  have hstep := CELFieldCompletionEngine.completeRuleStep_null E sF sIF
    (CELFieldCompletionEngine.complete E sF sIF doc pre).1 r hact hni hgp hv
  refine ⟨hstep, ?_, ?_⟩
  · rw [CELFieldCompletionEngine.complete_append E sF sIF doc pre (r :: post),
      CELFieldCompletionEngine.complete_append E sF sIF doc pre post]
    simp only [CELFieldCompletionEngine.complete, hstep, List.nil_append]
  · intro d it fld idx r2 hgp2 hv2
    exact CELFieldCompletionEngine.processOneItem_null E sIF d r2 fld idx it hgp2 hv2

/-- Claim C8 witness: a rule whose value expression resolves to null leaves
the document unchanged and records no log entry. -/
theorem C8_witness :
    CELFieldCompletionEngine.complete oracleNull docSetterId itemSetterId invC7w
        [ruleC8w]
      = (invC7w, []) := by
  have h := C8_null_value_writes_nothing oracleNull docSetterId itemSetterId invC7w
    [] [] ruleC8w rfl (by decide) (Or.inl rfl) rfl
  simpa [CELFieldCompletionEngine.complete] using h.2.1

/-- Claim C6: validate returns (isValid, errors) with isValid true exactly
when errors is empty; the error list is the concatenation of the per-rule
contributions over the whole rule list, so every active rule whose guard
holds is evaluated with no early stop; and an active rule whose guard
passes and whose expression evaluates to a falsy value contributes exactly
the single entry name-colon-message. -/
theorem C6_validate_accumulates (E : EvalOracle) (d : Invoice)
    (rules : List ValidationRule) (r : ValidationRule) (v : Value)
    (hact : r.active = true) (hgp : guardPassesV E d r)
    (hv : E r.rule_expression (mkCtx d Option.none) = Except.ok v)
    (hfalse : truthy v = false) :
    ((CELBusinessValidationEngine.validate E d rules).1 = true
      ↔ (CELBusinessValidationEngine.validate E d rules).2 = [])
    ∧ (CELBusinessValidationEngine.validate E d rules).2
        = rules.flatMap
            (fun r2 => (CELBusinessValidationEngine.validateRuleStep E d r2).1)
    ∧ (CELBusinessValidationEngine.validateRuleStep E d r).1
        = [r.rule_name ++ ": " ++ r.error_message] := by
  refine ⟨CELBusinessValidationEngine.validate_isValid_iff E d rules, ?_, ?_⟩
  · exact CELBusinessValidationEngine.validateGo_errors_flatMap E d rules
  · exact CELBusinessValidationEngine.validateRuleStep_failed E d r v hact hgp hv
      hfalse

/-- Claim C6 witness: one failing rule yields isValid false and exactly its
name-colon-message entry. -/
theorem C6_witness :
    CELBusinessValidationEngine.validate oracleFalse invC7w [ruleC6w]
      = (false, ["金额检查: 总金额必须大于0"]) := by
  have h := C6_validate_accumulates oracleFalse invC7w [ruleC6w] ruleC6w
    (Value.VBool false) rfl (Or.inl rfl) rfl rfl
  have h4 : (CELBusinessValidationEngine.validateRuleStep oracleFalse invC7w
      ruleC6w).1 = ["金额检查: 总金额必须大于0"] := by
    rw [h.2.2]
    rfl
  simp [CELBusinessValidationEngine.validate, CELBusinessValidationEngine.validateGo,
    h4]

/-- Claim C9: load_rules stores a permutation of the input, sorted by
priority in descending order, with equal priorities keeping their input
order (the filter at each priority equals the input filter); and rule
application iterates the stored list skipping inactive rules (complete on
a list equals complete on its active sublist). -/
theorem C9_load_rules_order (rules : List CompletionRule) :
    (CELFieldCompletionEngine.load_rules rules).Perm rules
    ∧ (CELFieldCompletionEngine.load_rules rules).Pairwise
        (fun a b => b.priority ≤ a.priority)
    ∧ (∀ k : Int, (CELFieldCompletionEngine.load_rules rules).filter
          (fun r => r.priority == k)
        = rules.filter (fun r => r.priority == k))
    ∧ (∀ (E : EvalOracle) (sF : DocSetter) (sIF : ItemSetter) (d : Invoice)
        (rs : List CompletionRule),
        CELFieldCompletionEngine.complete E sF sIF d rs
          = CELFieldCompletionEngine.complete E sF sIF d
              (rs.filter (fun r => r.active))) := by
  unfold CELFieldCompletionEngine.load_rules
  exact ⟨sortDescBy_perm (fun r => r.priority) rules,
    sortDescBy_sorted (fun r => r.priority) rules,
    fun k => sortDescBy_filter (fun r => r.priority) k rules,
    fun E sF sIF d rs =>
      CELFieldCompletionEngine.complete_filter_active E sF sIF d rs⟩

/-- Claim C9 witness: on a concrete list, load_rules puts the priority-2
rules first in registration order, then the priority-1 rule. -/
theorem C9_witness :
    CELFieldCompletionEngine.load_rules [ruleC9a, ruleC9b, ruleC9c]
      = [ruleC9b, ruleC9c, ruleC9a]
    ∧ (CELFieldCompletionEngine.load_rules [ruleC9a, ruleC9b, ruleC9c]).Perm
        [ruleC9a, ruleC9b, ruleC9c] := by
  refine ⟨?_, (C9_load_rules_order [ruleC9a, ruleC9b, ruleC9c]).1⟩
  simp [CELFieldCompletionEngine.load_rules, sortDescBy, insertDesc, ruleC9a,
    ruleC9b, ruleC9c]
